import Mathlib

/-!
Verification of the TMinusZero incremental enrichment pipeline.

This file gives a shallow embedding of the Python sources under
`scripts/` (agent.py, hf_client.py, launch_data.py,
upcoming_events_agent.py) and proves properties of the embedded
definitions.  Strings are modelled as `List Char`, Python's JSON values
as the inductive `Json`, machine integers as `Nat`/`Int`, and the
external world (HTTP responses, article text, the summarization
backend) as explicit oracle parameters.
-/

namespace TMinusZero

/-! ## Python string primitives -/

/-- Whitespace characters stripped by Python's `str.strip()` (ASCII part). -/
def pySpace (c : Char) : Bool :=
  c = ' ' || c = '\t' || c = '\n' || c = '\r' || c = '\x0b' || c = '\x0c'

/-- Python `text.strip()`: remove leading and trailing whitespace. -/
def pyStrip (l : List Char) : List Char :=
  ((l.dropWhile pySpace).reverse.dropWhile pySpace).reverse

/-- Python slicing `text[s:e]` for `0 ≤ s ≤ e`. -/
def pySlice (l : List Char) (s e : Nat) : List Char :=
  (l.drop s).take (e - s)

/-- Python `slice.rfind('. ')`: index of the last occurrence of a period
followed by a space, `none` when there is no occurrence (the source's `-1`). -/
def rfindPS : List Char → Option Nat
  | c1 :: c2 :: rest =>
    match rfindPS (c2 :: rest) with
    | some j => some (j + 1)
    | none => if c1 = '.' ∧ c2 = ' ' then some 0 else none
  | _ => none

/-! ## Text Chunker (`agent.py`, `chunk_text`)

The `while start < L` loop of `chunk_text` is embedded with explicit
fuel: `none` means the fuel ran out, which on this loop happens exactly
when the cursor stops advancing (`chunk_size_chars = 0`).  Each
produced pair `(s, e)` is the span `text[s:e]` of one chunk before its
per-chunk `strip()`. -/

/-- The adjusted end position for the slice starting at `start`:
`end = min(start + chunk_size_chars, L)`, moved back to just after the
last `'. '` of the slice when that occurrence lies past
`int(chunk_size_chars * 0.5)`. -/
def nextEnd (text : List Char) (csize start : Nat) : Nat :=
  if min (start + csize) text.length < text.length then
    match rfindPS (pySlice text start (min (start + csize) text.length)) with
    | some p => if csize / 2 < p then start + p + 1 else min (start + csize) text.length
    | none => min (start + csize) text.length
  else min (start + csize) text.length

/-- The chunk spans produced by the loop of `chunk_text`, with fuel. -/
def chunkSpansAux (text : List Char) (csize : Nat) : Nat → Nat → Option (List (Nat × Nat))
  | 0, start => if start < text.length then none else some []
  | fuel + 1, start =>
    if start < text.length then
      match chunkSpansAux text csize fuel (nextEnd text csize start) with
      | some rest => some ((start, nextEnd text csize start) :: rest)
      | none => none
    else some []

/-- Spans of `chunk_text text csize` on the stripped text, with enough fuel
for any terminating run. -/
def chunkSpans (text : List Char) (csize : Nat) : Option (List (Nat × Nat)) :=
  let t := pyStrip text
  chunkSpansAux t csize (t.length + 1) 0

/-- `chunk_text(text, chunk_size_chars)` from `agent.py`: strip, return the
single stripped text when it fits, otherwise cut into spans and strip each
chunk.  `none` models the non-terminating loop. -/
def chunk_text (text : List Char) (csize : Nat) : Option (List (List Char)) :=
  let t := pyStrip text
  if t.length ≤ csize then some [t]
  else
    match chunkSpans text csize with
    | some spans => some (spans.map fun se => pyStrip (pySlice t se.1 se.2))
    | none => none

/-- The loop of `chunk_text` diverges from cursor `start`: no amount of
fuel completes it. -/
def chunkLoopDiverges (text : List Char) (csize start : Nat) : Prop :=
  ∀ fuel, chunkSpansAux text csize fuel start = none

/-- Concatenation of segments, as in reassembling the chunks. -/
def joinChunks (ls : List (List Char)) : List Char :=
  ls.foldr (· ++ ·) []

/-! ## JSON values and Python dictionary operations -/

/-- Parsed JSON values, as produced by `resp.json()` / `json.load`. -/
inductive Json where
  | null
  | bool (b : Bool)
  | num (n : Int)
  | str (s : String)
  | arr (elems : List Json)
  | obj (fields : List (String × Json))

/-- Python truthiness of a JSON value (`if x:`). -/
def pyTruthy : Json → Bool
  | .null => false
  | .bool b => b
  | .num n => n != 0
  | .str s => s ≠ ""
  | .arr xs => !xs.isEmpty
  | .obj fs => !fs.isEmpty

/-- A Python `dict` holding JSON values, in insertion order. -/
abbrev PyDict := List (String × Json)

/-- Python `d.get(k)`: `none` models the `None` returned for a missing key. -/
def dictGet (d : PyDict) (k : String) : Option Json :=
  match d.find? fun p => p.1 == k with
  | some p => some p.2
  | none => none

/-- Python `d.get(k, default)`. -/
def dictGetD (d : PyDict) (k : String) (default : Json) : Json :=
  (dictGet d k).getD default

/-- Python `d[k] = v`: overwrite in place, else append (insertion order). -/
def dictSet (d : PyDict) (k : String) (v : Json) : PyDict :=
  match d with
  | [] => [(k, v)]
  | p :: rest => if p.1 = k then (k, v) :: rest else p :: dictSet rest k v

/-- Python `a or b` where `a` is the result of a `.get` (`None` is falsy):
the left value when it is present and truthy, otherwise the right value. -/
def pyOr (a : Option Json) (b : Json) : Json :=
  match a with
  | some v => if pyTruthy v then v else b
  | none => b

/-! ## Summarization Client (`hf_client.py` and `agent.py`)

The HTTP world is an oracle `Nat → HfResp` giving the outcome of each
attempt (attempts are numbered from 1, as in `range(1, retries + 1)`).
`HfOut.value = none` models the Python function returning `None` by
falling off the end of its retry loop; `sleeps` records the arguments
of the `asyncio.sleep` calls; `attempts` counts loop iterations run. -/

/-- Outcome of one HTTP POST to the inference endpoint. -/
inductive HfResp where
  | ok (body : Json)
  | status (code : Nat)
  | exn

/-- `resp.status in (429, 503, 502, 500)`. -/
def retryableStatus (c : Nat) : Bool :=
  c == 429 || c == 503 || c == 502 || c == 500

/-- `extract_summary_from_response` from `hf_client.py`: list whose first
element is a dict, a dict, or a bare string; anything else yields `""`. -/
def extract_summary_from_response (r : Json) : Json :=
  match r with
  | .arr (.obj f :: _) =>
    pyOr (dictGet f "summary_text") (pyOr (dictGet f "generated_text") (.str ""))
  | .obj f =>
    pyOr (dictGet f "summary_text") (pyOr (dictGet f "generated_text") (.str ""))
  | .str s => .str s
  | _ => .str ""

/-- The three response shapes recognized by the normalizers. -/
def recognizedShape : Json → Bool
  | .arr (.obj _ :: _) => true
  | .obj _ => true
  | .str _ => true
  | _ => false

/-- What one loop iteration does: return a value, raise an exception
(caught by the `except` handler), or fall through to the next iteration
without returning or raising. -/
inductive AttemptRes where
  | ret (v : Json)
  | exn
  | fallthrough

/-- One attempt of `hf_summarize_chunk` (`agent.py`): on 200, normalize
inline (unrecognized shapes fall through the `if` chain); on a retryable
status, raise; on another status, return `""`; transport errors raise. -/
def agentAttempt : HfResp → AttemptRes
  | .ok body =>
    match body with
    | .arr (.obj f :: _) =>
      .ret (pyOr (dictGet f "summary_text") (pyOr (dictGet f "generated_text") (.str "")))
    | .obj f =>
      .ret (pyOr (dictGet f "summary_text") (pyOr (dictGet f "generated_text") (.str "")))
    | .str s => .ret (.str s)
    | _ => .fallthrough
  | .status c => if retryableStatus c then .exn else .ret (.str "")
  | .exn => .exn

/-- One attempt of `call_hf_api` (`hf_client.py`): on 200, return the
normalized summary; on a retryable status with attempts remaining, raise;
on any other status (or a retryable one on the last attempt), return `""`. -/
def clientAttempt (retries attempt : Nat) : HfResp → AttemptRes
  | .ok body => .ret (extract_summary_from_response body)
  | .status c =>
    if retryableStatus c && decide (attempt < retries) then .exn else .ret (.str "")
  | .exn => .exn

/-- Observable outcome of a retry loop: the returned value (`none` is
Python's `None`), the sleep durations, and the number of attempts run. -/
structure HfOut where
  value : Option Json
  sleeps : List Nat
  attempts : Nat

/-- The `for attempt in range(1, retries + 1)` retry loop shared by both
clients, recursing on the number of attempts still available (at attempt
`a` that is `retries + 1 - a`): a raised exception with attempts
remaining sleeps `backoff ** attempt` (backoff = 2) and retries; on the
last attempt it is swallowed and `""` is returned; falling through
consumes an attempt without sleeping; exhausting the loop returns
`None`. -/
def hfRetryGo (step : Nat → AttemptRes) (retries : Nat) : Nat → Nat → HfOut
  | 0, _ => ⟨none, [], 0⟩
  | remaining + 1, attempt =>
    match step attempt with
    | .ret v => ⟨some v, [], 1⟩
    | .fallthrough =>
      let r := hfRetryGo step retries remaining (attempt + 1)
      ⟨r.value, r.sleeps, r.attempts + 1⟩
    | .exn =>
      if attempt < retries then
        let r := hfRetryGo step retries remaining (attempt + 1)
        ⟨r.value, 2 ^ attempt :: r.sleeps, r.attempts + 1⟩
      else ⟨some (.str ""), [], 1⟩

/-- `hf_summarize_chunk` from `agent.py` (default `retries=3`), with the
HTTP responses given by the oracle `resp`.  Every exception a request can
raise is caught by the loop's handler, so the embedding returns a plain
value for every oracle. -/
def hf_summarize_chunk (resp : Nat → HfResp) (retries : Nat := 3) : HfOut :=
  hfRetryGo (fun a => agentAttempt (resp a)) retries retries 1

/-- `call_hf_api` from `hf_client.py` (default `retries=1`). -/
def call_hf_api (resp : Nat → HfResp) (retries : Nat := 1) : HfOut :=
  hfRetryGo (fun a => clientAttempt retries a (resp a)) retries retries 1

/-! ## Launch records and the Change-Detection Merger (`launch_data.py`)

A launch record keeps the fields the merger, the enricher and the saver
inspect.  `id = none` models a record whose `id` key is absent (so
`launch.get('id')` is `None`, which is falsy); integer id `0` is the
other falsy id.  `ai_summary` distinguishes an absent key (`none`), a
key bound to `None` (`some none`) and a key bound to a string
(`some (some s)`), so that both `'ai_summary' in launch` and
`launch.get('ai_summary') is not None` are expressible. -/

/-- A launch record. -/
structure Launch where
  id : Option Nat
  ai_summary : Option (Option String)
  net : String
  name : String
deriving DecidableEq, Repr

/-- `existing_launch.get('ai_summary') is not None`: the key is present
and bound to a string — possibly the empty one. -/
def aiPresent (p : Launch) : Bool :=
  match p.ai_summary with
  | some (some _) => true
  | _ => false

/-- The reuse test of `filter_and_enhance_launches`
(`if launch_id and launch_id in existing_launches` and the prior entry's
`ai_summary` is not `None`): `some p` is the prior entry appended to the
output, `none` sends the fresh record to processing. -/
def reuseHit (existing : Nat → Option Launch) (l : Launch) : Option Launch :=
  match l.id with
  | some i =>
    if i = 0 then none
    else
      match existing i with
      | some p => if aiPresent p then some p else none
      | none => none
  | none => none

/-- The routing loop of `filter_and_enhance_launches` over the list of
`Go` candidates, split into the reused prior entries and the records
left for processing, each in input order. -/
def partitionLaunches (existing : Nat → Option Launch) :
    List Launch → List Launch × List Launch
  | [] => ([], [])
  | l :: ls =>
    let (r, t) := partitionLaunches existing ls
    match reuseHit existing l with
    | some p => (p :: r, t)
    | none => (r, l :: t)

/-- Python dict insertion `m[k] = v`: an existing key keeps its position
and gets the new value, a new key is appended. -/
def mapInsert (m : List (Nat × Launch)) (k : Nat) (v : Launch) : List (Nat × Launch) :=
  match m with
  | [] => [(k, v)]
  | p :: rest => if p.1 = k then (k, v) :: rest else p :: mapInsert rest k v

/-- `load_existing_launches`: index the snapshot's launches by their `id`
(records without an `id` key are skipped), preserving insertion order. -/
def loadExistingMap (file : List Launch) : List (Nat × Launch) :=
  file.foldl
    (fun m l =>
      match l.id with
      | some i => mapInsert m i l
      | none => m)
    []

/-- Lookup in the insertion-ordered map. -/
def mapLookup (m : List (Nat × Launch)) (i : Nat) : Option Launch :=
  match m.find? fun p => p.1 == i with
  | some p => some p.2
  | none => none

/-! ## AI enhancement and persistence of launches
(`upcoming_events_agent.py`, `launch_data.py`) -/

/-- One launch in `enhance_all_launches_with_ai`: a launch that already
has an `ai_summary` key is left alone; one without gets the summarizer's
(stripped) output when the summarizer is available, else `""` — an empty
or failed result is stored as the explicit empty string. -/
def enhanceLaunch (oracle : Launch → String) (aiAvailable : Bool) (l : Launch) : Launch :=
  match l.ai_summary with
  | some _ => l
  | none =>
    if aiAvailable then { l with ai_summary := some (some (oracle l)) }
    else { l with ai_summary := some (some "") }

/-- `enhance_all_launches_with_ai` over the whole list (in-place updates
keep the list order). -/
def enhanceAll (oracle : Launch → String) (aiAvailable : Bool)
    (launches : List Launch) : List Launch :=
  launches.map (enhanceLaunch oracle aiAvailable)

/-- The persisted snapshot document assembled by `save_launches_to_json`
(`last_updated`, an external wall-clock read, is omitted). -/
structure LaunchSnapshot where
  count : Nat
  source : String
  filter_criteria : String
  data_includes : List String
  launches : List Launch
  ai_model : Option String
  successful_summaries : Nat
  empty_summaries : Nat
deriving DecidableEq, Repr

/-- `launch['ai_summary']` is present and truthy. -/
def aiTruthy (l : Launch) : Bool :=
  match l.ai_summary with
  | some (some s) => s ≠ ""
  | _ => false

/-- `'ai_summary' in launch` but the value is falsy (`None` or `""`). -/
def aiEmpty (l : Launch) : Bool :=
  match l.ai_summary with
  | some (some s) => s = ""
  | some none => true
  | none => false

/-- `save_launches_to_json` from `launch_data.py`: count the successful
and empty summaries, build the metadata, and store the given launch list
unchanged as the snapshot's `launches` array. -/
def save_launches_to_json (data : List Launch) (ai_model_name : Option String)
    (has_ai_summaries : Bool) : LaunchSnapshot :=
  let ai_summary_count := (data.filter aiTruthy).length
  let empty_summary_count := (data.filter aiEmpty).length
  let base := ["Launch Service Provider details", "Mission descriptions",
    "Rocket configuration information & statistics",
    "Rocket manufacturer details & statistics", "Launch site details", "Media URLs"]
  let withAi :=
    if has_ai_summaries then
      (if 0 < ai_summary_count then base ++ ["AI-generated summaries"] else base) ++
        (if 0 < empty_summary_count then ["Empty AI summaries"] else [])
    else base
  { count := data.length
    source := "The Space Devs API (Enhanced)"
    filter_criteria := "status.name == \x22Go\x22"
    data_includes := withAi
    launches := data
    ai_model := if has_ai_summaries then ai_model_name else none
    successful_summaries := ai_summary_count
    empty_summaries := empty_summary_count }

/-- Lexicographic comparison of character lists (string order by code
point, as Python compares `str` values). -/
def charListLe : List Char → List Char → Bool
  | [], _ => true
  | _ :: _, [] => false
  | a :: as, b :: bs => if a < b then true else if b < a then false else charListLe as bs

/-- String order by code point. -/
def strLeB (a b : String) : Bool :=
  charListLe a.toList b.toList

/-- Descending order on the `net` timestamp, as a Boolean check. -/
def sortedByNetDescB : List Launch → Bool
  | [] => true
  | [_] => true
  | a :: b :: rest => strLeB b.net a.net && sortedByNetDescB (b :: rest)

/-- Outcome of a driver run: a written snapshot, or failure. -/
inductive RunResult where
  | saved (snap : LaunchSnapshot)
  | failed
deriving DecidableEq, Repr

/-- The launches of a run's snapshot, when one was written. -/
def launchesOfRun : RunResult → Option (List Launch)
  | .saved snap => some snap.launches
  | .failed => none

/-- The upstream-list-failure branch of `upcoming_events_agent.main`
(lines following `if not launches_data`): with a prior snapshot, work on
its launches (re-enhancing them when the summarizer is available) and
save; with none, the run fails. -/
def upcomingFallback (existingFile : List Launch) (aiAvailable : Bool)
    (oracle : Launch → String) (model : Option String) : RunResult :=
  let existing := loadExistingMap existingFile
  if existing.isEmpty then .failed
  else
    let go0 := existing.map Prod.snd
    let go1 := if aiAvailable then enhanceAll oracle true go0 else go0
    .saved (save_launches_to_json go1 (if aiAvailable then model else none) aiAvailable)

/-! ## The news pipeline (`agent.py`) -/

/-- A SpaceFlightNews article record, with the fields `main`,
`process_item` and the final sort inspect. -/
structure NewsItem where
  id : Nat
  published_at : Option String
  detailed_news : Option String
  summary : Option String
deriving DecidableEq, Repr

/-- `existing_items = {item["id"]: item for item in old_data}` followed by
`existing_items.get(id)`: for duplicate ids the last record wins. -/
def newsLookup (olds : List NewsItem) (i : Nat) : Option NewsItem :=
  olds.reverse.find? fun o => o.id == i

/-- The reuse decision of `agent.py`'s `main`
(`if old_item and old_item.get("id") == item.get("id")`). -/
def newsReuse (olds : List NewsItem) (item : NewsItem) : Bool :=
  match newsLookup olds item.id with
  | some old => old.id == item.id
  | none => false

/-- The sort key `x.get("published_at", "")`. -/
def pubKey (it : NewsItem) : String :=
  it.published_at.getD ""

/-- The comparison used by `sorted(..., reverse=True)`: descending on the
publication timestamp. -/
def newsGE (a b : NewsItem) : Prop :=
  pubKey b ≤ pubKey a

instance : DecidableRel newsGE := fun a b => inferInstanceAs (Decidable (pubKey b ≤ pubKey a))

instance : IsTotal NewsItem newsGE := ⟨fun a b => le_total (pubKey b) (pubKey a)⟩

instance : IsTrans NewsItem newsGE := ⟨fun _ _ _ h1 h2 => le_trans h2 h1⟩

/-- `sorted(processed, key=lambda x: x.get("published_at", ""), reverse=True)`:
a stable sort, descending on the timestamp key. -/
def newsSortDesc (l : List NewsItem) : List NewsItem :=
  l.insertionSort newsGE

/-- The run skeleton of `agent.py`'s `main`: the list fetch goes through
`fetch_json`, whose `raise_for_status()` failure propagates uncaught and
aborts the run whatever the prior snapshot held; on success each fresh
record either reuses the prior record of the same id or is processed
(`proc` abstracts `process_item`), and the collected records are sorted
before persisting. -/
def agentRun (existingFile : List NewsItem) (fetch : Except String (List NewsItem))
    (proc : NewsItem → NewsItem) : Except String (List NewsItem) :=
  match fetch with
  | .error e => .error e
  | .ok items =>
    let merged := items.map fun it =>
      match newsLookup existingFile it.id with
      | some old => if old.id == it.id then old else proc it
      | none => proc it
    .ok (newsSortDesc merged)

/-! ## The Enrichment Orchestrator (`agent.py`, `process_item`)

`process_item` is embedded over the raw record dictionary, with the
article fetch and the chunk summarizer as oracles (`summ c = none`
models a `None` returned by `hf_summarize_chunk`).  The result is
`none` when the chunker inside diverges (chunk size 0). -/

/-- Split off the longest whitespace-free prefix (helper for
`str.split()`). -/
def takeWord : List Char → List Char × List Char
  | [] => ([], [])
  | c :: rest =>
    if pySpace c then ([], c :: rest)
    else
      let (w, r) := takeWord rest
      (c :: w, r)

lemma takeWord_snd_length_le : ∀ l : List Char, (takeWord l).2.length ≤ l.length := by
  intro l
  induction l with
  | nil => simp [takeWord]
  | cons c rest ih =>
    simp only [takeWord]
    by_cases h : pySpace c
    · simp [h]
    · simp only [h, if_false]
      exact le_trans ih (Nat.le_succ _)

/-- Python `text.split()`: maximal whitespace-free words, separators and
empty words dropped. -/
def pySplitWS : List Char → List (List Char)
  | [] => []
  | c :: rest =>
    if pySpace c then pySplitWS rest
    else (c :: (takeWord rest).1) :: pySplitWS (takeWord rest).2
termination_by l => l.length
decreasing_by
  · simp only [List.length_cons]; omega
  · have := takeWord_snd_length_le rest
    simp only [List.length_cons]; omega

/-- Python `" ".join(parts)`. -/
def joinWithSpace : List (List Char) → List Char
  | [] => []
  | [x] => x
  | x :: xs => x ++ ' ' :: joinWithSpace xs

/-- `process_item` from `agent.py`: without a truthy `url`, or when the
fetched article text is empty, fall back to the record's `summary` field
(default `""`); otherwise chunk the text, summarize every chunk, join
the truthy chunk summaries with spaces, condense when the joined text
exceeds the chunk size (keeping the condensed text only when truthy),
and prefer the uncondensed text when the result has fewer words than
half the target.  Every path stores the result under `detailed_news`
and returns the record. -/
def process_item (csize target : Nat) (fetchText : Json → List Char)
    (summ : List Char → Option (List Char)) (item : PyDict) : Option PyDict :=
  let urlOpt := dictGet item "url"
  let urlTruthy := match urlOpt with | some u => pyTruthy u | none => false
  if urlTruthy = false then
    some (dictSet item "detailed_news" (dictGetD item "summary" (.str "")))
  else
    let text := fetchText (urlOpt.getD .null)
    if text.isEmpty then
      some (dictSet item "detailed_news" (dictGetD item "summary" (.str "")))
    else
      match chunk_text text csize with
      | none => none
      | some chunks =>
        let summaries := chunks.map summ
        let kept := summaries.filterMap fun s =>
          match s with
          | some w => if w.isEmpty then none else some w
          | none => none
        let combined := joinWithSpace kept
        let final0 :=
          if csize < combined.length then
            match summ combined with
            | some c => if c.isEmpty then combined else c
            | none => combined
          else combined
        let final1 :=
          if (pySplitWS final0).length * 2 < target then
            (if combined.isEmpty then final0 else combined)
          else final0
        some (dictSet item "detailed_news" (.str (String.mk final1)))

/-! ## Dictionary update lemmas -/

lemma dictGet_dictSet_self (d : PyDict) (k : String) (v : Json) :
    dictGet (dictSet d k v) k = some v := by
  induction d with
  | nil => simp [dictSet, dictGet, List.find?]
  | cons p rest ih =>
    by_cases h : p.1 = k
    · simp [dictSet, dictGet, List.find?, h]
    · have h1 : (p.1 == k) = false := beq_eq_false_iff_ne.mpr h
      simp only [dictSet, if_neg h]
      simp only [dictGet, List.find?, h1] at ih ⊢
      exact ih

lemma dictGet_dictSet_other (d : PyDict) (k k' : String) (v : Json) (h : k' ≠ k) :
    dictGet (dictSet d k v) k' = dictGet d k' := by
  induction d with
  | nil =>
    have h1 : (k == k') = false := beq_eq_false_iff_ne.mpr (Ne.symm h)
    simp [dictSet, dictGet, List.find?, h1]
  | cons p rest ih =>
    by_cases hp : p.1 = k
    · have h1 : (p.1 == k') = false := by
        refine beq_eq_false_iff_ne.mpr ?_
        rw [hp]; exact Ne.symm h
      have h2 : (k == k') = false := beq_eq_false_iff_ne.mpr (Ne.symm h)
      simp [dictSet, dictGet, List.find?, hp, h1, h2]
    · by_cases hp' : p.1 = k'
      · simp [dictSet, dictGet, List.find?, hp, hp', h]
      · have h1 : (p.1 == k') = false := beq_eq_false_iff_ne.mpr hp'
        simp only [dictSet, if_neg hp]
        simp only [dictGet, List.find?, h1] at ih ⊢
        exact ih

/-! ## Specification of `rfind('. ')` -/

/-- The text has a `". "` occurrence at index `i`. -/
def isPS (l : List Char) (i : Nat) : Prop :=
  l[i]? = some '.' ∧ l[i + 1]? = some ' '

lemma rfindPS_none : ∀ l : List Char, rfindPS l = none → ∀ q, ¬ isPS l q := by
  intro l
  induction l with
  | nil => intro _ q hq; simp [isPS] at hq
  | cons c l' ih =>
    cases l' with
    | nil =>
      intro _ q hq
      rcases hq with ⟨h1, h2⟩
      cases q with
      | zero => simp at h2
      | succ q' => simp at h1
    | cons c2 rest =>
      intro h q hq
      simp only [rfindPS] at h
      cases hr : rfindPS (c2 :: rest) with
      | some j => rw [hr] at h; simp at h
      | none =>
        rw [hr] at h
        have hcond : ¬(c = '.' ∧ c2 = ' ') := by
          by_contra hc
          rw [if_pos hc] at h
          simp at h
        cases q with
        | zero =>
          rcases hq with ⟨h1, h2⟩
          simp only [List.getElem?_cons_zero, Option.some_inj] at h1
          simp only [List.getElem?_cons_succ, List.getElem?_cons_zero, Option.some_inj] at h2
          exact hcond ⟨h1, h2⟩
        | succ q' =>
          rcases hq with ⟨h1, h2⟩
          simp only [List.getElem?_cons_succ] at h1 h2
          exact ih hr q' ⟨h1, by simp only [List.getElem?_cons_succ]; exact h2⟩

lemma rfindPS_some : ∀ l : List Char, ∀ p, rfindPS l = some p →
    isPS l p ∧ ∀ q, p < q → ¬ isPS l q := by
  intro l
  induction l with
  | nil => intro p h; simp [rfindPS] at h
  | cons c l' ih =>
    cases l' with
    | nil => intro p h; simp [rfindPS] at h
    | cons c2 rest =>
      intro p h
      simp only [rfindPS] at h
      cases hr : rfindPS (c2 :: rest) with
      | some j =>
        rw [hr] at h
        simp only [Option.some_inj] at h
        subst h
        rcases ih j hr with ⟨⟨hj1, hj2⟩, hmax⟩
        refine ⟨⟨?_, ?_⟩, ?_⟩
        · simpa [List.getElem?_cons_succ] using hj1
        · simpa [List.getElem?_cons_succ] using hj2
        · intro q hq hocc
          cases q with
          | zero => omega
          | succ q' =>
            rcases hocc with ⟨h1, h2⟩
            simp only [List.getElem?_cons_succ] at h1 h2
            exact hmax q' (by omega) ⟨h1, by simp only [List.getElem?_cons_succ]; exact h2⟩
      | none =>
        rw [hr] at h
        by_cases hc : c = '.' ∧ c2 = ' '
        · rw [if_pos hc] at h
          simp only [Option.some_inj] at h
          subst h
          refine ⟨⟨?_, ?_⟩, ?_⟩
          · simp [hc.1]
          · simp [hc.2]
          · intro q hq hocc
            cases q with
            | zero => omega
            | succ q' =>
              rcases hocc with ⟨h1, h2⟩
              simp only [List.getElem?_cons_succ] at h1 h2
              exact rfindPS_none _ hr q' ⟨h1, by simp only [List.getElem?_cons_succ]; exact h2⟩
        · rw [if_neg hc] at h
          simp at h

/-- A `". "` occurrence is strictly inside the text. -/
lemma isPS_lt_length {l : List Char} {i : Nat} (h : isPS l i) : i + 1 < l.length := by
  rcases h with ⟨-, h2⟩
  rcases List.getElem?_eq_some.mp h2 with ⟨hlt, -⟩
  exact hlt

lemma pySlice_length (l : List Char) (s e : Nat) (he : e ≤ l.length) (hs : s ≤ e) :
    (pySlice l s e).length = e - s := by
  simp only [pySlice, List.length_take, List.length_drop]
  omega

/-! ## Properties of the chunking loop -/

lemma start_le_nextEnd (text : List Char) (csize start : Nat) (h : start ≤ text.length) :
    start ≤ nextEnd text csize start := by
  have hmin : start ≤ min (start + csize) text.length := by omega
  unfold nextEnd
  split
  · split
    · split
      · omega
      · exact hmin
    · exact hmin
  · exact hmin

lemma nextEnd_le (text : List Char) (csize start : Nat) (_h : start ≤ text.length) :
    nextEnd text csize start ≤ text.length := by
  have hmin : min (start + csize) text.length ≤ text.length := by omega
  unfold nextEnd
  split
  · rename_i hlt
    split
    · rename_i p hp
      split
      · rcases rfindPS_some _ p hp with ⟨hocc, -⟩
        have hlen : (pySlice text start (min (start + csize) text.length)).length
            = min (start + csize) text.length - start := by
          refine pySlice_length _ _ _ (by omega) (by omega)
        have := isPS_lt_length hocc
        omega
      · exact hmin
    · exact hmin
  · exact hmin

lemma lt_nextEnd (text : List Char) (csize start : Nat) (h : start < text.length)
    (hc : 1 ≤ csize) : start < nextEnd text csize start := by
  have hmin : start < min (start + csize) text.length := by omega
  unfold nextEnd
  split
  · split
    · split
      · omega
      · exact hmin
    · exact hmin
  · exact hmin

/-- With a positive chunk size, enough fuel always completes the loop. -/
lemma chunkSpansAux_isSome (text : List Char) (csize : Nat) (hc : 1 ≤ csize) :
    ∀ fuel start, start ≤ text.length → text.length + 1 ≤ start + fuel →
      (chunkSpansAux text csize fuel start).isSome := by
  intro fuel
  induction fuel with
  | zero =>
    intro start hs hf
    have : ¬ start < text.length := by omega
    simp [chunkSpansAux, this]
  | succ fuel ih =>
    intro start hs hf
    by_cases h : start < text.length
    · have h1 := lt_nextEnd text csize start h hc
      have h2 := nextEnd_le text csize start hs
      have := ih (nextEnd text csize start) h2 (by omega)
      simp only [chunkSpansAux, if_pos h]
      cases hr : chunkSpansAux text csize fuel (nextEnd text csize start) with
      | some rest => simp
      | none => rw [hr] at this; simp at this
    · simp [chunkSpansAux, h]

/-- Shape invariant of a span list starting at cursor `start`: spans are
adjacent, ordered, within the text, and end at the text's end. -/
def spansWF (L : Nat) : Nat → List (Nat × Nat) → Prop
  | start, [] => start = L
  | start, (s, e) :: rest => s = start ∧ s ≤ e ∧ e ≤ L ∧ spansWF L e rest

lemma chunkSpansAux_wf (text : List Char) (csize : Nat) :
    ∀ fuel start spans, start ≤ text.length →
      chunkSpansAux text csize fuel start = some spans →
      spansWF text.length start spans := by
  intro fuel
  induction fuel with
  | zero =>
    intro start spans hs h
    by_cases hlt : start < text.length
    · simp [chunkSpansAux, hlt] at h
    · simp only [chunkSpansAux, if_neg hlt, Option.some_inj] at h
      subst h
      have : start = text.length := by omega
      simpa [spansWF] using this
  | succ fuel ih =>
    intro start spans hs h
    by_cases hlt : start < text.length
    · simp only [chunkSpansAux, if_pos hlt] at h
      cases hr : chunkSpansAux text csize fuel (nextEnd text csize start) with
      | none => rw [hr] at h; simp at h
      | some rest =>
        rw [hr] at h
        simp only [Option.some_inj] at h
        subst h
        have h1 := start_le_nextEnd text csize start hs
        have h2 := nextEnd_le text csize start hs
        exact ⟨rfl, h1, h2, ih _ _ h2 hr⟩
    · simp only [chunkSpansAux, if_neg hlt, Option.some_inj] at h
      subst h
      have : start = text.length := by omega
      simpa [spansWF] using this

/-- With a positive chunk size the cursor strictly advances: every span is
non-degenerate. -/
lemma chunkSpansAux_strict (text : List Char) (csize : Nat) (hc : 1 ≤ csize) :
    ∀ fuel start spans,
      chunkSpansAux text csize fuel start = some spans →
      ∀ se ∈ spans, se.1 < se.2 := by
  intro fuel
  induction fuel with
  | zero =>
    intro start spans h se hse
    by_cases hlt : start < text.length
    · simp [chunkSpansAux, hlt] at h
    · simp only [chunkSpansAux, if_neg hlt, Option.some_inj] at h
      subst h
      simp at hse
  | succ fuel ih =>
    intro start spans h se hse
    by_cases hlt : start < text.length
    · simp only [chunkSpansAux, if_pos hlt] at h
      cases hr : chunkSpansAux text csize fuel (nextEnd text csize start) with
      | none => rw [hr] at h; simp at h
      | some rest =>
        rw [hr] at h
        simp only [Option.some_inj] at h
        subst h
        rcases List.mem_cons.mp hse with hmem | hmem
        · subst hmem
          exact lt_nextEnd text csize start hlt hc
        · exact ih _ _ hr se hmem
    · simp only [chunkSpansAux, if_neg hlt, Option.some_inj] at h
      subst h
      simp at hse

/-- Split a suffix at a span: the span's slice followed by the remaining
suffix is the whole suffix. -/
lemma pySlice_append_drop (l : List Char) (s e : Nat) (hs : s ≤ e) (_he : e ≤ l.length) :
    pySlice l s e ++ l.drop e = l.drop s := by
  have h1 : l.drop e = (l.drop s).drop (e - s) := by
    rw [List.drop_drop]
    congr 1
    omega
  rw [pySlice, h1, List.take_append_drop]

/-- The boundary slices of a well-formed span list concatenate to the
suffix of the text from the starting cursor. -/
lemma spansWF_join (t : List Char) :
    ∀ spans start, spansWF t.length start spans →
      joinChunks (spans.map fun se => pySlice t se.1 se.2) = t.drop start := by
  intro spans
  induction spans with
  | nil =>
    intro start h
    simp only [spansWF] at h
    subst h
    simp [joinChunks, List.drop_length]
  | cons se rest ih =>
    intro start h
    obtain ⟨s, e⟩ := se
    rcases h with ⟨hs, hse, heL, hrest⟩
    subst hs
    simp only [List.map_cons, joinChunks, List.foldr_cons]
    have : List.foldr (· ++ ·) [] (rest.map fun se => pySlice t se.1 se.2) = t.drop e := ih e hrest
    rw [this]
    exact pySlice_append_drop t s e hse heL

/-- The boundary position `e` of a chunk starting at cursor `s` either
sits just after the last `". "` occurrence of the looked-ahead slice
`t[s : min (s + csize) (len t)]`, that occurrence lying past the
half-chunk-size mark, or is the hard cut exactly `csize` characters
after `s` because no occurrence lies past that mark. -/
def boundaryOK (t : List Char) (csize s e : Nat) : Prop :=
  (∃ p, isPS (pySlice t s (min (s + csize) t.length)) p ∧
      (∀ q, p < q → ¬ isPS (pySlice t s (min (s + csize) t.length)) q) ∧
      csize / 2 < p ∧ e = s + p + 1) ∨
  ((∀ p, isPS (pySlice t s (min (s + csize) t.length)) p → p ≤ csize / 2) ∧
      e = s + csize)

lemma nextEnd_boundary (t : List Char) (csize s : Nat)
    (hlt : nextEnd t csize s < t.length) : boundaryOK t csize s (nextEnd t csize s) := by
  unfold nextEnd at hlt ⊢
  by_cases h0 : min (s + csize) t.length < t.length
  · rw [if_pos h0] at hlt ⊢
    cases hr : rfindPS (pySlice t s (min (s + csize) t.length)) with
    | some p =>
      dsimp only at hlt ⊢
      rcases rfindPS_some _ p hr with ⟨hocc, hmax⟩
      by_cases hp : csize / 2 < p
      · rw [if_pos hp]
        exact Or.inl ⟨p, hocc, hmax, hp, rfl⟩
      · rw [if_neg hp]
        refine Or.inr ⟨?_, by omega⟩
        intro q hq
        by_cases hqp : p < q
        · exact absurd hq (hmax q hqp)
        · omega
    | none =>
      dsimp only at hlt ⊢
      exact Or.inr ⟨fun q hq => absurd hq (rfindPS_none _ hr q), by omega⟩
  · rw [if_neg h0] at hlt
    omega

lemma chunkSpansAux_start_lt (text : List Char) (csize : Nat) :
    ∀ fuel start spans, chunkSpansAux text csize fuel start = some spans →
      spans ≠ [] → start < text.length := by
  intro fuel start spans h hne
  by_cases hlt : start < text.length
  · exact hlt
  · exfalso
    apply hne
    cases fuel with
    | zero =>
      simp only [chunkSpansAux, if_neg hlt, Option.some_inj] at h
      exact h.symm
    | succ fuel =>
      simp only [chunkSpansAux, if_neg hlt, Option.some_inj] at h
      exact h.symm

/-- Every non-final span of the chunking loop satisfies the boundary
characterization. -/
lemma chunkSpansAux_boundary (text : List Char) (csize : Nat) :
    ∀ fuel start spans,
      chunkSpansAux text csize fuel start = some spans →
      ∀ i s e, i + 1 < spans.length → spans[i]? = some (s, e) →
        boundaryOK text csize s e := by
  intro fuel
  induction fuel with
  | zero =>
    intro start spans h i s e hi hsp
    by_cases hlt : start < text.length
    · simp [chunkSpansAux, hlt] at h
    · simp only [chunkSpansAux, if_neg hlt, Option.some_inj] at h
      subst h
      simp at hi
  | succ fuel ih =>
    intro start spans h i s e hi hsp
    by_cases hlt : start < text.length
    · simp only [chunkSpansAux, if_pos hlt] at h
      cases hr : chunkSpansAux text csize fuel (nextEnd text csize start) with
      | none => rw [hr] at h; simp at h
      | some rest =>
        rw [hr] at h
        simp only [Option.some_inj] at h
        subst h
        cases i with
        | zero =>
          have hrne : rest ≠ [] := by
            intro hrnil
            subst hrnil
            simp at hi
          have hlt2 : nextEnd text csize start < text.length :=
            chunkSpansAux_start_lt text csize fuel _ rest hr hrne
          simp only [List.getElem?_cons_zero, Option.some_inj] at hsp
          injection hsp with h1 h2
          subst h1
          subst h2
          exact nextEnd_boundary text csize start hlt2
        | succ i' =>
          simp only [List.getElem?_cons_succ] at hsp
          simp only [List.length_cons] at hi
          exact ih _ rest hr i' s e (by omega) hsp
    · simp only [chunkSpansAux, if_neg hlt, Option.some_inj] at h
      subst h
      simp at hi

/-! ## Properties of the retry loop -/

lemma hfRetryGo_ret (step : Nat → AttemptRes) (retries remaining attempt : Nat) (v : Json)
    (h2 : step attempt = .ret v) :
    hfRetryGo step retries (remaining + 1) attempt = ⟨some v, [], 1⟩ := by
  simp [hfRetryGo, h2]

/-- A run whose every attempt before the last raises, and whose last
attempt raises or returns `""`: the loop sleeps `2 ^ attempt` after each
non-final failure and ends with `""` after using every attempt. -/
lemma hfRetryGo_exn_run :
    ∀ remaining attempt (step : Nat → AttemptRes) (retries : Nat),
      remaining + attempt = retries + 1 → 1 ≤ remaining →
      (∀ n, attempt ≤ n → n < retries → step n = .exn) →
      (step retries = .exn ∨ step retries = .ret (.str "")) →
      hfRetryGo step retries remaining attempt =
        ⟨some (.str ""), (List.range (remaining - 1)).map fun i => 2 ^ (attempt + i),
          remaining⟩ := by
  intro remaining
  induction remaining with
  | zero => intro attempt step retries _ h1; omega
  | succ rem ih =>
    intro attempt step retries hsum _h1 hmid hlast
    cases Nat.eq_zero_or_pos rem with
    | inl hz =>
      subst hz
      have hea : attempt = retries := by omega
      subst hea
      rcases hlast with h | h
      · simp [hfRetryGo, h]
      · simp [hfRetryGo, h]
    | inr hpos =>
      have hlt : attempt < retries := by omega
      have hstep : step attempt = .exn := hmid attempt le_rfl hlt
      have hrec := ih (attempt + 1) step retries (by omega) (by omega)
        (fun n h1 h2 => hmid n (by omega) h2) hlast
      simp only [hfRetryGo, hstep]
      rw [if_pos hlt, hrec]
      dsimp only
      refine congrArg₂ (HfOut.mk (some (.str ""))) ?_ rfl
      rw [show rem + 1 - 1 = (rem - 1) + 1 by omega,
        List.range_succ_eq_map, List.map_cons, List.map_map]
      refine congrArg₂ List.cons (by rw [Nat.add_zero]) ?_
      apply List.map_congr_left
      intro i _
      simp only [Function.comp_apply]
      congr 1
      omega

/-- A run whose every attempt falls through (a 200 body of an
unrecognized shape): no sleeps, every available attempt consumed, and the
loop falls off its end returning `None`. -/
lemma hfRetryGo_fallthrough_run :
    ∀ remaining attempt (step : Nat → AttemptRes) (retries : Nat),
      (∀ n, step n = .fallthrough) →
      hfRetryGo step retries remaining attempt = ⟨none, [], remaining⟩ := by
  intro remaining
  induction remaining with
  | zero => intro attempt step retries _; rfl
  | succ rem ih =>
    intro attempt step retries hall
    simp only [hfRetryGo, hall attempt]
    rw [ih (attempt + 1) step retries hall]

/-! ## Helper facts about `chunk_text` and `process_item` -/

lemma chunk_text_isSome (text : List Char) (csize : Nat) (hc : 1 ≤ csize) :
    (chunk_text text csize).isSome := by
  have had := chunkSpansAux_isSome (pyStrip text) csize hc ((pyStrip text).length + 1) 0
    (by omega) (by omega)
  simp only [chunk_text, chunkSpans]
  split
  · simp
  · cases hr : chunkSpansAux (pyStrip text) csize ((pyStrip text).length + 1) 0 with
    | some spans => simp [hr]
    | none => rw [hr] at had; simp at had

lemma process_item_sets (csize target : Nat) (fetchText : Json → List Char)
    (summ : List Char → Option (List Char)) (item : PyDict) (hc : 1 ≤ csize) :
    ∃ v, process_item csize target fetchText summ item =
      some (dictSet item "detailed_news" v) := by
  unfold process_item
  dsimp only
  split
  · exact ⟨_, rfl⟩
  · split
    · exact ⟨_, rfl⟩
    · have hsome := chunk_text_isSome (fetchText ((dictGet item "url").getD .null)) csize hc
      cases hr : chunk_text (fetchText ((dictGet item "url").getD .null)) csize with
      | none => rw [hr] at hsome; simp at hsome
      | some chunks => exact ⟨_, rfl⟩

/-! ## Claim theorems -/

/-- C10: for every record, `process_item` returns the record with only the
`detailed_news` field added or overwritten — every other field is returned
unchanged, on every path (no URL, failed fetch, failed summarization), and
`detailed_news` is always present in the result.  Stated for any positive
chunk size (the loop inside `chunk_text` does not terminate at size 0),
any fetch oracle and any summarizer oracle. -/
theorem claimC10_process_item_frame :
    ∀ (csize target : Nat) (fetchText : Json → List Char)
      (summ : List Char → Option (List Char)) (item : PyDict), 1 ≤ csize →
      ∃ d, process_item csize target fetchText summ item = some d ∧
        (∀ k, k ≠ "detailed_news" → dictGet d k = dictGet item k) ∧
        (dictGet d "detailed_news").isSome = true := by
  intro csize target f s item hc
  obtain ⟨v, hv⟩ := process_item_sets csize target f s item hc
  refine ⟨_, hv, fun k hk => dictGet_dictSet_other item "detailed_news" k v hk, ?_⟩
  rw [dictGet_dictSet_self]
  rfl

/-- Witness for C10 at a concrete record with an `id` and a `summary`
field and no URL. -/
theorem claimC10_witness :
    1 ≤ 2000 ∧
    ∃ d, process_item 2000 1000 (fun _ => []) (fun _ => none)
        [("id", Json.num 1), ("summary", Json.str "s")] = some d ∧
      (∀ k, k ≠ "detailed_news" →
        dictGet d k = dictGet [("id", Json.num 1), ("summary", Json.str "s")] k) ∧
      (dictGet d "detailed_news").isSome = true :=
  ⟨by decide, claimC10_process_item_frame 2000 1000 (fun _ => []) (fun _ => none)
    [("id", Json.num 1), ("summary", Json.str "s")] (by decide)⟩

/-- C9, counterexample: at `max_chars = 0` the cursor of `chunk_text`
never advances — the loop of `chunk_text("ab", 0)` completes under no
amount of fuel, although the trimmed text is non-empty. -/
theorem claimC9_counterexample :
    chunkLoopDiverges ['a', 'b'] 0 0 ∧ chunk_text ['a', 'b'] 0 = none ∧
      0 < (pyStrip ['a', 'b']).length := by
  refine ⟨?_, rfl, by decide⟩
  intro fuel
  induction fuel with
  | zero => rfl
  | succ fuel ih =>
    have hne : nextEnd ['a', 'b'] 0 0 = 0 := rfl
    simp [chunkSpansAux, hne, ih]

/-- C9, amended: for every text and every `max_chars ≥ 1`, `chunk_text`
terminates with a finite chunk sequence, and the cursor strictly advances
on every iteration (every span is non-degenerate). -/
theorem claimC9_terminates :
    ∀ (text : List Char) (csize : Nat), 1 ≤ csize →
      (chunk_text text csize).isSome = true ∧
      (∀ spans, chunkSpans text csize = some spans → ∀ se ∈ spans, se.1 < se.2) := by
  intro text csize hc
  refine ⟨chunk_text_isSome text csize hc, ?_⟩
  intro spans hs se hse
  simp only [chunkSpans] at hs
  exact chunkSpansAux_strict (pyStrip text) csize hc _ _ _ hs se hse

/-- Witness for C9 at text `"hi"` and chunk size 1. -/
theorem claimC9_witness :
    1 ≤ 1 ∧
    ((chunk_text ['h', 'i'] 1).isSome = true ∧
      (∀ spans, chunkSpans ['h', 'i'] 1 = some spans → ∀ se ∈ spans, se.1 < se.2)) :=
  ⟨by decide, claimC9_terminates ['h', 'i'] 1 (by decide)⟩

/-- C7, counterexample: the emitted chunks are stripped
(`text[start:end].strip()`), so concatenating the produced segments of
`chunk_text("aaaa. bb", 6)` drops the boundary space and does not
reconstruct the trimmed original. -/
theorem claimC7_counterexample :
    chunk_text "aaaa. bb".toList 6 = some ["aaaa.".toList, "bb".toList] ∧
      joinChunks ["aaaa.".toList, "bb".toList] ≠ pyStrip "aaaa. bb".toList := by
  exact ⟨by decide, by decide⟩

/-- C7, amended: the chunk boundaries tile the trimmed text — the
boundary-delimited slices (before the per-chunk strip) concatenate exactly
to the trimmed original, with no characters dropped or duplicated — and
the emitted chunks are exactly those slices stripped. -/
theorem claimC7_boundaries_reassemble :
    ∀ (text : List Char) (csize : Nat) (spans : List (Nat × Nat)),
      chunkSpans text csize = some spans →
      spansWF (pyStrip text).length 0 spans ∧
      joinChunks (spans.map fun se => pySlice (pyStrip text) se.1 se.2) = pyStrip text ∧
      (csize < (pyStrip text).length →
        chunk_text text csize =
          some (spans.map fun se => pyStrip (pySlice (pyStrip text) se.1 se.2))) := by
  intro text csize spans hs
  simp only [chunkSpans] at hs
  have hwf := chunkSpansAux_wf (pyStrip text) csize _ 0 spans (by omega) hs
  refine ⟨hwf, ?_, ?_⟩
  · have := spansWF_join (pyStrip text) spans 0 hwf
    simpa using this
  · intro hlen
    simp only [chunk_text, chunkSpans, if_neg (by omega : ¬ (pyStrip text).length ≤ csize), hs]

/-- Witness for C7 at `"aaaa. bb"` with chunk size 6. -/
theorem claimC7_witness :
    chunkSpans "aaaa. bb".toList 6 = some [(0, 5), (5, 8)] ∧
    (spansWF (pyStrip "aaaa. bb".toList).length 0 [(0, 5), (5, 8)] ∧
      joinChunks ([(0, 5), (5, 8)].map fun se =>
        pySlice (pyStrip "aaaa. bb".toList) se.1 se.2) = pyStrip "aaaa. bb".toList ∧
      (6 < (pyStrip "aaaa. bb".toList).length →
        chunk_text "aaaa. bb".toList 6 =
          some ([(0, 5), (5, 8)].map fun se =>
            pyStrip (pySlice (pyStrip "aaaa. bb".toList) se.1 se.2)))) :=
  ⟨by decide, claimC7_boundaries_reassemble "aaaa. bb".toList 6 [(0, 5), (5, 8)] (by decide)⟩

/-- C6: for every text longer than `max_chars` after trimming, every
non-final chunk boundary chosen by `chunk_text` either lands just after a
`". "` occurrence located past the `50%`-of-`max_chars` mark of its slice
(the cut point being the last such occurrence in the slice), or lies
exactly `max_chars` characters after the previous cursor position when no
occurrence lies past that mark. -/
theorem claimC6_boundaries :
    ∀ (text : List Char) (csize : Nat) (spans : List (Nat × Nat)),
      csize < (pyStrip text).length →
      chunkSpans text csize = some spans →
      ∀ i s e, i + 1 < spans.length → spans[i]? = some (s, e) →
        boundaryOK (pyStrip text) csize s e := by
  intro text csize spans _hlen hs i s e hi hsp
  simp only [chunkSpans] at hs
  exact chunkSpansAux_boundary (pyStrip text) csize _ 0 spans hs i s e hi hsp

/-- Witness for C6: the first boundary of `chunk_text("aaaa. bb", 6)` is a
sentence cut. -/
theorem claimC6_witness :
    6 < (pyStrip "aaaa. bb".toList).length ∧
    chunkSpans "aaaa. bb".toList 6 = some [(0, 5), (5, 8)] ∧
    boundaryOK (pyStrip "aaaa. bb".toList) 6 0 5 :=
  ⟨by decide, by decide,
    claimC6_boundaries "aaaa. bb".toList 6 [(0, 5), (5, 8)] (by decide) (by decide)
      0 0 5 (by decide) (by decide)⟩

/-- A 200 body of unrecognized shape makes `hf_summarize_chunk`'s attempt
fall through its `if` chain. -/
lemma agentAttempt_fallthrough (body : Json) (h : recognizedShape body = false) :
    agentAttempt (.ok body) = .fallthrough := by
  match body with
  | .null | .bool _ | .num _ => rfl
  | .str s => simp [recognizedShape] at h
  | .obj f => simp [recognizedShape] at h
  | .arr [] => rfl
  | .arr (x :: rest) =>
    match x with
    | .obj f => simp [recognizedShape] at h
    | .null | .bool _ | .num _ | .str _ | .arr _ => rfl

/-- C2: for every retry count `r ≥ 1`: a run of retryable statuses
(429/500/502/503) consumes one attempt per failure, sleeps `2 ^ attempt`
seconds before each retry, and returns the empty string after all `r`
attempts, in both `hf_summarize_chunk` and `call_hf_api`; any other
non-200 status returns the empty string immediately, on the first
attempt, with no sleeps; and even a run of transport exceptions ends with
the empty string — the loops catch every exception, so neither client
raises to its caller (both embeddings are total functions of the
oracle). -/
theorem claimC2_retry_policy :
    ∀ (retries : Nat) (resp : Nat → HfResp) (c : Nat), 1 ≤ retries →
      ((∀ n, resp n = .status c) → retryableStatus c = true →
        hf_summarize_chunk resp retries =
          ⟨some (.str ""), (List.range (retries - 1)).map fun i => 2 ^ (1 + i), retries⟩ ∧
        call_hf_api resp retries =
          ⟨some (.str ""), (List.range (retries - 1)).map fun i => 2 ^ (1 + i), retries⟩) ∧
      (resp 1 = .status c → retryableStatus c = false → c ≠ 200 →
        hf_summarize_chunk resp retries = ⟨some (.str ""), [], 1⟩ ∧
        call_hf_api resp retries = ⟨some (.str ""), [], 1⟩) ∧
      ((∀ n, resp n = .exn) →
        hf_summarize_chunk resp retries =
          ⟨some (.str ""), (List.range (retries - 1)).map fun i => 2 ^ (1 + i), retries⟩) := by
  intro retries resp c hr
  have hsplit : retries = (retries - 1) + 1 := by omega
  refine ⟨?_, ?_, ?_⟩
  · intro hall hc
    constructor
    · have h1 := hfRetryGo_exn_run retries 1
        (fun a => agentAttempt (resp a)) retries (by omega) (by omega)
        (fun n _ _ => by simp [hall n, agentAttempt, hc])
        (Or.inl (by simp [hall retries, agentAttempt, hc]))
      rw [hf_summarize_chunk, h1]
    · have h1 := hfRetryGo_exn_run retries 1
        (fun a => clientAttempt retries a (resp a)) retries (by omega) (by omega)
        (fun n _ hn => by simp [hall n, clientAttempt, hc, hn])
        (Or.inr (by simp [hall retries, clientAttempt]))
      rw [call_hf_api, h1]
  · intro h1 hc _hc200
    constructor
    · rw [hf_summarize_chunk, hsplit]
      exact hfRetryGo_ret _ _ (retries - 1) 1 (.str "")
        (by simp [h1, agentAttempt, hc])
    · rw [call_hf_api, hsplit]
      exact hfRetryGo_ret _ _ (retries - 1) 1 (.str "")
        (by simp [h1, clientAttempt, hc])
  · intro hall
    have h1 := hfRetryGo_exn_run retries 1
      (fun a => agentAttempt (resp a)) retries (by omega) (by omega)
      (fun n _ _ => by simp [hall n, agentAttempt])
      (Or.inl (by simp [hall retries, agentAttempt]))
    rw [hf_summarize_chunk, h1]

/-- Witness for C2: three attempts against a constant 503 oracle sleep 2
and 4 seconds and return the empty string in both clients. -/
theorem claimC2_witness :
    (1 ≤ 3 ∧ retryableStatus 503 = true) ∧
    hf_summarize_chunk (fun _ => .status 503) 3 = ⟨some (.str ""), [2, 4], 3⟩ ∧
    call_hf_api (fun _ => .status 503) 3 = ⟨some (.str ""), [2, 4], 3⟩ := by
  refine ⟨⟨by decide, by decide⟩, ?_⟩
  have h := (claimC2_retry_policy 3 (fun _ => .status 503) 503 (by decide)).1
    (fun n => rfl) (by decide)
  rcases h with ⟨h1, h2⟩
  constructor
  · rw [h1]
    rfl
  · rw [h2]
    rfl

/-- C5, counterexample: on an HTTP-200 body that is none of the three
recognized shapes (here, the number 5), `hf_summarize_chunk` does not
return the empty string — its inline normalization falls through, the
request is silently retried, and after the attempts are exhausted the
function returns Python's `None`. -/
theorem claimC5_counterexample :
    (hf_summarize_chunk (fun _ => .ok (.num 5)) 3).value = none ∧
    (hf_summarize_chunk (fun _ => .ok (.num 5)) 3).value ≠ some (.str "") := by
  have hv : (hf_summarize_chunk (fun _ => .ok (.num 5)) 3).value = none := rfl
  refine ⟨hv, ?_⟩
  intro h
  rw [hv] at h
  exact Option.noConfusion h

/-- C5, amended: `extract_summary_from_response` returns the first
element's `summary_text` (or the `generated_text` fallback, else the
empty string) when the body is a list whose first element is an object,
the same fields for a single object, the string itself for a bare
string, and the empty string for every other shape; the inline
normalization of `hf_summarize_chunk` agrees on the recognized shapes
but on every other 200 body it falls through, retries, and returns a
null result — not the empty string — after exhausting its attempts. -/
theorem claimC5_normalization :
    (∀ s, extract_summary_from_response (.str s) = .str s) ∧
    (∀ r, recognizedShape r = false → extract_summary_from_response r = .str "") ∧
    (∀ f rest, extract_summary_from_response (.arr (.obj f :: rest)) =
      extract_summary_from_response (.obj f)) ∧
    (∀ f v, dictGet f "summary_text" = some v → pyTruthy v = true →
      extract_summary_from_response (.obj f) = v) ∧
    (∀ f v w, dictGet f "summary_text" = some v → pyTruthy v = false →
      dictGet f "generated_text" = some w → pyTruthy w = true →
      extract_summary_from_response (.obj f) = w) ∧
    (∀ f, dictGet f "summary_text" = none → dictGet f "generated_text" = none →
      extract_summary_from_response (.obj f) = .str "") ∧
    (∀ (body : Json) (retries : Nat), 1 ≤ retries → recognizedShape body = false →
      hf_summarize_chunk (fun _ => .ok body) retries = ⟨none, [], retries⟩) := by
  refine ⟨fun s => rfl, ?_, fun f rest => rfl, ?_, ?_, ?_, ?_⟩
  · intro r h
    match r with
    | .null | .bool _ | .num _ => rfl
    | .str s => simp [recognizedShape] at h
    | .obj f => simp [recognizedShape] at h
    | .arr [] => rfl
    | .arr (x :: rest) =>
      match x with
      | .obj f => simp [recognizedShape] at h
      | .null | .bool _ | .num _ | .str _ | .arr _ => rfl
  · intro f v h1 h2
    simp [extract_summary_from_response, pyOr, h1, h2]
  · intro f v w h1 h2 h3 h4
    simp [extract_summary_from_response, pyOr, h1, h2, h3, h4]
  · intro f h1 h2
    simp [extract_summary_from_response, pyOr, h1, h2]
  · intro body retries _h1 h2
    have hstep := agentAttempt_fallthrough body h2
    have h3 := hfRetryGo_fallthrough_run retries 1
      (fun a => agentAttempt ((fun _ => HfResp.ok body) a)) retries (fun n => hstep)
    rw [hf_summarize_chunk, h3]

/-- Witness for C5: a bare string passes through, and a 200 body that is
an empty list drives `hf_summarize_chunk` to a `None` result. -/
theorem claimC5_witness :
    (1 ≤ 2 ∧ recognizedShape (Json.arr []) = false) ∧
    extract_summary_from_response (.str "hi") = .str "hi" ∧
    hf_summarize_chunk (fun _ => .ok (.arr [])) 2 = ⟨none, [], 2⟩ := by
  refine ⟨⟨by decide, rfl⟩, ?_, ?_⟩
  · exact claimC5_normalization.1 "hi"
  · exact claimC5_normalization.2.2.2.2.2.2 (.arr []) 2 (by decide) rfl

/-- The reuse marker test in Boolean form: `ai_summary` is present and
bound to a string. -/
lemma aiPresent_iff (p : Launch) :
    aiPresent p = true ↔ ∃ s, p.ai_summary = some (some s) := by
  cases hp : p.ai_summary with
  | none => simp [aiPresent, hp]
  | some v =>
    cases v with
    | none => simp [aiPresent, hp]
    | some s => simp [aiPresent, hp]

/-- C1, counterexample: the news-pipeline merger (`agent.py`, `main`)
routes the fresh record with id 7 to reuse although the prior result
under that id carries no enrichment marker at all (`detailed_news`
absent), contradicting the only-if direction of the claim. -/
theorem claimC1_counterexample :
    newsReuse [⟨7, none, none, none⟩] ⟨7, none, none, none⟩ = true ∧
    NewsItem.detailed_news ⟨7, none, none, none⟩ = none := by
  exact ⟨by decide, rfl⟩

/-- C1, amended: the launch-pipeline merger routes a fresh candidate to
the reusable partition iff its id is present and truthy, a prior result
exists under that id, and the prior result's `ai_summary` is a string —
the explicit empty string included — and the worked example routes ids 1
and 2 to `reusable` and id 3 to `to_process`; the news-pipeline merger
(`agent.py`) reuses whenever a prior result exists under the same id,
without consulting any enrichment marker. -/
theorem claimC1_merger :
    (∀ (existing : Nat → Option Launch) (l : Launch),
      (reuseHit existing l).isSome = true ↔
        ∃ i, l.id = some i ∧ i ≠ 0 ∧
          ∃ p, existing i = some p ∧ ∃ s, p.ai_summary = some (some s)) ∧
    (partitionLaunches
        (fun i => if i = 1 then some ⟨some 1, some (some "x"), "", "L1"⟩
          else if i = 2 then some ⟨some 2, some (some ""), "", "L2"⟩ else none)
        [⟨some 1, none, "", "F1"⟩, ⟨some 2, none, "", "F2"⟩, ⟨some 3, none, "", "F3"⟩] =
      ([⟨some 1, some (some "x"), "", "L1"⟩, ⟨some 2, some (some ""), "", "L2"⟩],
        [⟨some 3, none, "", "F3"⟩])) ∧
    (∀ (olds : List NewsItem) (item : NewsItem),
      newsReuse olds item = true ↔ (newsLookup olds item.id).isSome = true) := by
  refine ⟨?_, by decide, ?_⟩
  · intro existing l
    unfold reuseHit
    cases hid : l.id with
    | none => simp
    | some i =>
      dsimp only
      by_cases hz : i = 0
      · subst hz
        simp
      · rw [if_neg hz]
        cases hex : existing i with
        | none => simp [hz, hex]
        | some p =>
          dsimp only
          by_cases hai : aiPresent p = true
          · rw [if_pos hai]
            exact iff_of_true rfl ⟨i, rfl, hz, p, hex, (aiPresent_iff p).mp hai⟩
          · rw [if_neg hai]
            refine iff_of_false (by simp) ?_
            rintro ⟨i', hi', -, p', hp', s, hs⟩
            rw [Option.some_inj] at hi'
            subst hi'
            rw [hex, Option.some_inj] at hp'
            subst hp'
            exact hai ((aiPresent_iff p).mpr ⟨s, hs⟩)
  · intro olds item
    unfold newsReuse
    cases hl : newsLookup olds item.id with
    | none => simp
    | some old =>
      unfold newsLookup at hl
      have hfind := List.find?_some hl
      simp [hfind]

/-- C3, counterexample: a run of the upcoming-events pipeline that
reaches persistence (the fallback path, with a two-record prior
snapshot) writes the records in their stored order, which is ascending —
not descending — in the `net` timestamp. -/
theorem claimC3_counterexample :
    launchesOfRun (upcomingFallback
        [⟨some 10, some (some "a"), "2020-01-01T00:00:00Z", "A"⟩,
          ⟨some 11, some (some "b"), "2025-01-01T00:00:00Z", "B"⟩]
        false (fun _ => "") none) =
      some [⟨some 10, some (some "a"), "2020-01-01T00:00:00Z", "A"⟩,
        ⟨some 11, some (some "b"), "2025-01-01T00:00:00Z", "B"⟩] ∧
    sortedByNetDescB
      [⟨some 10, some (some "a"), "2020-01-01T00:00:00Z", "A"⟩,
        ⟨some 11, some (some "b"), "2025-01-01T00:00:00Z", "B"⟩] = false := by
  exact ⟨by decide, by decide⟩

/-- C3, amended: the news pipeline sorts the collected records — reused
and freshly processed merged into one sequence — by descending
`published_at` before persisting, for every input arrangement (the
persisted list is a sorted permutation of the collected one); the launch
pipeline's `save_launches_to_json` persists its list in the order given,
with no sort. -/
theorem claimC3_output_order :
    (∀ l : List NewsItem, List.Sorted newsGE (newsSortDesc l) ∧ (newsSortDesc l).Perm l) ∧
    (∀ (data : List Launch) (m : Option String) (ai : Bool),
      (save_launches_to_json data m ai).launches = data) := by
  constructor
  · intro l
    exact ⟨List.sorted_insertionSort newsGE l, List.perm_insertionSort newsGE l⟩
  · intro data m ai
    rfl

/-- C4, counterexample: in the news pipeline (`agent.py`) a failed list
fetch aborts the run even though a prior snapshot exists —
`fetch_json`'s `raise_for_status` propagates out of `main` uncaught. -/
theorem claimC4_counterexample :
    agentRun [⟨7, some "2020", some "d", none⟩] (.error "HTTP 500") (fun it => it) =
      .error "HTTP 500" ∧
    ([⟨7, some "2020", some "d", none⟩] : List NewsItem) ≠ [] := by
  exact ⟨rfl, by decide⟩

/-- C4, amended: in the upcoming-events pipeline a failed list fetch
falls back to the prior snapshot — with a non-empty prior the run
re-enhances only the entries still missing `ai_summary` (entries that
have one are returned unchanged) and saves successfully, and with no
prior the run fails; the news pipeline, by contrast, aborts on a failed
list fetch regardless of any prior snapshot. -/
theorem claimC4_list_fetch_failure :
    (∀ (file : List Launch) (aiAvail : Bool) (oracle : Launch → String) (model : Option String),
      loadExistingMap file = [] → upcomingFallback file aiAvail oracle model = .failed) ∧
    (∀ (file : List Launch) (oracle : Launch → String) (model : Option String),
      loadExistingMap file ≠ [] →
      upcomingFallback file true oracle model =
        .saved (save_launches_to_json
          (enhanceAll oracle true ((loadExistingMap file).map Prod.snd)) model true)) ∧
    (∀ (oracle : Launch → String) (l : Launch),
      l.ai_summary ≠ none → enhanceLaunch oracle true l = l) ∧
    (∀ (oracle : Launch → String) (l : Launch),
      l.ai_summary = none →
        (enhanceLaunch oracle true l).ai_summary = some (some (oracle l))) ∧
    (∀ (file : List NewsItem) (e : String) (proc : NewsItem → NewsItem),
      agentRun file (.error e) proc = .error e) := by
  refine ⟨?_, ?_, ?_, ?_, fun file e proc => rfl⟩
  · intro file aiAvail oracle model h
    simp [upcomingFallback, h]
  · intro file oracle model h
    have hne : (loadExistingMap file).isEmpty = false := by
      cases hq : loadExistingMap file with
      | nil => exact absurd hq h
      | cons a rest => rfl
    simp [upcomingFallback, hne]
  · intro oracle l h
    cases hl : l.ai_summary with
    | none => exact absurd hl h
    | some v => simp [enhanceLaunch, hl]
  · intro oracle l h
    simp [enhanceLaunch, h]

/-- Witness for C4: the fallback at an empty prior snapshot fails, and
at a one-record prior snapshot it saves the enhanced prior records. -/
theorem claimC4_witness :
    (loadExistingMap ([] : List Launch) = [] ∧
      loadExistingMap [⟨some 10, some (some "a"), "n", "A"⟩] ≠ []) ∧
    upcomingFallback [] true (fun _ => "") none = .failed ∧
    upcomingFallback [⟨some 10, some (some "a"), "n", "A"⟩] true (fun _ => "") none =
      .saved (save_launches_to_json
        (enhanceAll (fun _ => "") true
          ((loadExistingMap [⟨some 10, some (some "a"), "n", "A"⟩]).map Prod.snd)) none true) := by
  refine ⟨⟨rfl, by decide⟩, ?_, ?_⟩
  · exact claimC4_list_fetch_failure.1 [] true (fun _ => "") none rfl
  · exact claimC4_list_fetch_failure.2.1 [⟨some 10, some (some "a"), "n", "A"⟩]
      (fun _ => "") none (by decide)

end TMinusZero
